import Mathlib

/-!
Verification development for the Spice VS Code extension's text analyzer
(`src/extension.ts`).  The analyzer's pure routines are embedded as Lean
functions over `List Char`:

* `splitLines`, `positionAt` — the document's line/column addressing
  (text split on the newline character, as `text.split('\n')` does);
* `findBlockEnd` — the brace-depth block boundary resolver
  (`SpiceDocumentSymbolProvider.findBlockEnd`);
* `docSymbols` — the document symbol scanner
  (`SpiceDocumentSymbolProvider.provideDocumentSymbols`);
* `parseDocumentSymbols` — the completion provider's symbol extraction
  (`SpiceCompletionItemProvider.parseDocumentSymbols`);
* `sdDefinition` — the definition provider
  (`SpiceDefinitionProvider.provideDefinition`);
* `updateDiagnosticsList` — the per-line diagnostic generator
  (`updateDiagnostics`), modelling the diagnostic computation itself; the
  host configuration gate (`enableDiagnostics`) is editor plumbing outside
  the analyzer;
* `detectBuiltinOverrides` — the shadow detector.

The regular expressions of the source are embedded as deterministic
matchers.  Each pattern in the source is a concatenation of literals,
greedy character-class repetitions and optional groups in which greedy
matching never needs backtracking (after a maximal run of a class, the
following required literal starts with a character outside that class),
except for the `implements` tail, where the overlap of `\s` with the
class `[\w\s,]` is accounted for explicitly (see `implementsOpt`).
-/

/-- ASCII word character, the JavaScript regex class `\w`. -/
def isWordChar (c : Char) : Bool := c.isAlphanum || c == '_'

/-- Whitespace, the JavaScript regex class `\s` (ASCII part). -/
def isSpaceChar (c : Char) : Bool :=
  c == ' ' || c == '\t' || c == '\n' || c == '\r' || c == '\x0b' || c == '\x0c'

/-- The character class `[\w\s,]` used by the `implements` tail of the
class declaration pattern. -/
def isImplChar (c : Char) : Bool := isWordChar c || isSpaceChar c || c == ','

/-- Drop a maximal run of whitespace (a greedy `\s*`). -/
def dropSpaces (l : List Char) : List Char := l.dropWhile isSpaceChar

/-- A greedy `\s+`: require at least one whitespace character, then consume
a maximal whitespace run. -/
def ws1 : List Char → Option (List Char)
  | [] => none
  | c :: cs => if isSpaceChar c then some (dropSpaces cs) else none

/-- Match a literal: `stripLit pre l` returns the remainder of `l` after
the prefix `pre`, or `none` when `pre` is not a prefix of `l`. -/
def stripLit : List Char → List Char → Option (List Char)
  | [], l => some l
  | _ :: _, [] => none
  | p :: ps, c :: cs => if c == p then stripLit ps cs else none

/-- Boolean prefix test (used for `String.startsWith` and substring search). -/
def isPrefixB : List Char → List Char → Bool
  | [], _ => true
  | _ :: _, [] => false
  | p :: ps, c :: cs => p == c && isPrefixB ps cs

/-- `String.includes`: does `pat` occur as a contiguous substring? -/
def hasSubstr (pat : List Char) : List Char → Bool
  | [] => isPrefixB pat []
  | c :: cs => isPrefixB pat (c :: cs) || hasSubstr pat cs

/-- `String.indexOf`: index of the first occurrence of `pat` (the length of
the list when `pat` does not occur; in every use here `pat` does occur). -/
def subIdx (pat : List Char) : List Char → Nat
  | [] => 0
  | c :: cs => if isPrefixB pat (c :: cs) then 0 else subIdx pat cs + 1

/-- `String.trim`: remove whitespace at both ends. -/
def trimChars (l : List Char) : List Char :=
  ((l.dropWhile isSpaceChar).reverse.dropWhile isSpaceChar).reverse

/-- `text.split('\n')`, auxiliary with an accumulator for the current line
(kept reversed). -/
def splitLinesAux : List Char → List Char → List (List Char)
  | acc, [] => [acc.reverse]
  | acc, c :: cs =>
    if c == '\n' then acc.reverse :: splitLinesAux [] cs
    else splitLinesAux (c :: acc) cs

/-- `text.split('\n')`: the document's lines.  Like the JavaScript split,
the result is never empty, and a trailing newline yields a final empty
line. -/
def splitLines (l : List Char) : List (List Char) := splitLinesAux [] l

/-- `document.positionAt`: convert a character offset into a
`(line, column)` pair by walking the text. -/
def posAtAux : List Char → Nat → Nat × Nat → Nat × Nat
  | _, 0, p => p
  | [], _ + 1, p => p
  | c :: cs, k + 1, p =>
    posAtAux cs k (if c == '\n' then (p.1 + 1, 0) else (p.1, p.2 + 1))

/-- `document.positionAt(offset)` for an offset in range. -/
def positionAt (text : List Char) (off : Nat) : Nat × Nat :=
  posAtAux text off (0, 0)

/-- Order on `(line, column)` positions. -/
def posLe (a b : Nat × Nat) : Prop := a.1 < b.1 ∨ (a.1 = b.1 ∧ a.2 ≤ b.2)

instance (a b : Nat × Nat) : Decidable (posLe a b) := by
  unfold posLe; infer_instance

/-- The end-of-document position: the position immediately after the last
character of the text (`document.positionAt(text.length)`). -/
def endOfDocPos (text : List Char) : Nat × Nat :=
  ((splitLines text).length - 1, ((splitLines text).getLastD []).length)

/-! ### Block boundary resolver (`findBlockEnd`)

The source iterates `for i = startPos.line .. lineCount-1` and within each
line `for j = (i == startPos.line ? startPos.character : 0) .. len-1`,
maintaining `braceCount` and `foundFirstBrace`; on a `}` it decrements and,
if a `{` was seen and the count reached zero, returns `Position(i, j+1)`.
If the loops finish it returns `Position(lineCount - 1, 0)`.  We embed the
visited `(line, column, char)` sequence explicitly and run the counter over
it. -/

/-- Tag the characters of one line with `(line, column)` starting at a
given column. -/
def tagChars (i : Nat) : Nat → List Char → List (Nat × Nat × Char)
  | _, [] => []
  | j, c :: cs => (i, j, c) :: tagChars i (j + 1) cs

/-- Tag a list of lines with their indices starting at `k`. -/
def tagLines : Nat → List (List Char) → List (Nat × List Char)
  | _, [] => []
  | k, l :: ls => (k, l) :: tagLines (k + 1) ls

/-- The sequence of `(line, column, char)` triples the `findBlockEnd` loops
visit, starting at line `sl`, column `sc`. -/
def visited (lines : List (List Char)) (sl sc : Nat) : List (Nat × Nat × Char) :=
  match lines.drop sl with
  | [] => []
  | l :: rest =>
    tagChars sl sc (l.drop sc) ++
      (tagLines (sl + 1) rest).flatMap (fun p => tagChars p.1 0 p.2)

/-- The brace-depth scan of `findBlockEnd`: `depth` is `braceCount`,
`found` is `foundFirstBrace`; returns the `(line, column)` of the closing
brace at which the counter returns to zero after a first `{`. -/
def scanBlock : List (Nat × Nat × Char) → Int → Bool → Option (Nat × Nat)
  | [], _, _ => none
  | t :: rest, depth, found =>
    if t.2.2 == '{' then scanBlock rest (depth + 1) true
    else if t.2.2 == '}' then
      (if found = true ∧ depth - 1 = 0 then some (t.1, t.2.1)
       else scanBlock rest (depth - 1) found)
    else scanBlock rest depth found

/-- `SpiceDocumentSymbolProvider.findBlockEnd`: the position just after the
matching closing brace, or `Position(lineCount - 1, 0)` when the scan runs
off the end of the document. -/
def findBlockEnd (lines : List (List Char)) (startPos : Nat × Nat) : Nat × Nat :=
  match scanBlock (visited lines startPos.1 startPos.2) 0 false with
  | some p => (p.1, p.2 + 1)
  | none => (lines.length - 1, 0)

/-- Brace contribution of one character. -/
def charDelta (c : Char) : Int := if c == '{' then 1 else if c == '}' then -1 else 0

/-- Net brace depth of a visited segment. -/
def braceDelta (cs : List (Nat × Nat × Char)) : Int :=
  (cs.map (fun t => charDelta t.2.2)).sum

/-- `closesAtG d f cs k`: position `k` of the visited sequence closes the
block when the scan starts with depth `d` and found-flag `f`: the character
is `}`, the depth after processing it is zero, and an opening brace was
seen (or `f` already holds). -/
def closesAtG (d : Int) (f : Bool) (cs : List (Nat × Nat × Char)) (k : Nat) : Bool :=
  match cs.get? k with
  | some t =>
    (t.2.2 == '}') && (d + braceDelta (cs.take (k + 1)) == 0) &&
      (f || (cs.take k).any (fun x => x.2.2 == '{'))
  | none => false

/-- Specialization of `closesAtG` to the initial scanner state. -/
def closesAt (cs : List (Nat × Nat × Char)) (k : Nat) : Bool := closesAtG 0 false cs k

/-- No position of the visited sequence ever closes a block: the depth
counter never returns to zero after a first `{` (in particular when no `{`
occurs at all). -/
def noClose (cs : List (Nat × Nat × Char)) : Bool :=
  (List.range cs.length).all (fun k => !closesAt cs k)

/-! ### Pattern matchers

Deterministic embeddings of the concrete regular expressions of the
source.  Naming: `...Core` is the part after an optional modifier prefix,
`...Sym` the document-symbol variant, `...C` the completion variant, and
`...W` the definition-provider variant parameterized by the looked-up
word. -/

/-- One `modifier\s+` unit for `(?:abstract\s+|final\s+)?` (class
patterns). -/
def tryModAF (l : List Char) : Option (List Char) :=
  match stripLit "abstract".data l with
  | some r => ws1 r
  | none =>
    match stripLit "final".data l with
    | some r => ws1 r
    | none => none

/-- One `modifier\s+` unit for `static`/`final`/`abstract` (function and
shadow-detector patterns). -/
def tryMod (l : List Char) : Option (List Char) :=
  match stripLit "static".data l with
  | some r => ws1 r
  | none =>
    match stripLit "final".data l with
    | some r => ws1 r
    | none =>
      match stripLit "abstract".data l with
      | some r => ws1 r
      | none => none

/-- The optional `(?:\s+extends\s+\w+)?` tail: returns the remainder after
the group, or the input unchanged when the group does not match. -/
def extendsOpt (l : List Char) : List Char :=
  match ws1 l with
  | none => l
  | some r =>
    match stripLit "extends".data r with
    | none => l
    | some r2 =>
      match ws1 r2 with
      | none => l
      | some r3 =>
        if (r3.takeWhile isWordChar).isEmpty then l else r3.dropWhile isWordChar

/-- The optional `(?:\s+implements\s+[\w\s,]+)?` tail.  Because `\s` is
contained in `[\w\s,]`, the group matches exactly when a whitespace
character follows `implements` and the maximal `[\w\s,]` run after
`implements` has length at least two; the greedy match then consumes that
whole run. -/
def implementsOpt (l : List Char) : List Char :=
  match ws1 l with
  | none => l
  | some r =>
    match stripLit "implements".data r with
    | none => l
    | some r2 =>
      match r2 with
      | [] => l
      | c :: _ =>
        if isSpaceChar c && decide (2 ≤ (r2.takeWhile isImplChar).length) then
          r2.dropWhile isImplChar
        else l

/-- Core of the class pattern `class\s+(\w+)(?:\s+extends\s+\w+)?`
`(?:\s+implements\s+[\w\s,]+)?`: returns `(rest, name)`. -/
def classCore (l : List Char) : Option (List Char × List Char) :=
  match stripLit "class".data l with
  | none => none
  | some r1 =>
    match ws1 r1 with
    | none => none
    | some r2 =>
      let nm := r2.takeWhile isWordChar
      if nm.isEmpty then none
      else some (implementsOpt (extendsOpt (r2.dropWhile isWordChar)), nm)

/-- The document-symbol class pattern
`(?:abstract\s+|final\s+)?class\s+(\w+)(?:\s+extends\s+\w+)?(?:\s+implements\s+[\w\s,]+)?`. -/
def classStepSym (l : List Char) : Option (List Char × List Char) :=
  match tryModAF l with
  | some r => classCore r
  | none => classCore l

/-- The interface pattern `interface\s+(\w+)` (shared by the symbol,
completion and outline scans). -/
def interfaceStep (l : List Char) : Option (List Char × List Char) :=
  match stripLit "interface".data l with
  | none => none
  | some r1 =>
    match ws1 r1 with
    | none => none
    | some r2 =>
      let nm := r2.takeWhile isWordChar
      if nm.isEmpty then none else some (r2.dropWhile isWordChar, nm)

/-- The optional `(?:\s*->\s*\w+)?` return-type tail of the function
pattern. -/
def retOpt (l : List Char) : List Char :=
  match stripLit "->".data (dropSpaces l) with
  | none => l
  | some r2 =>
    if ((dropSpaces r2).takeWhile isWordChar).isEmpty then l
    else (dropSpaces r2).dropWhile isWordChar

/-- Core of the document-symbol function pattern
`def\s+(\w+)\s*\([^)]*\)(?:\s*->\s*\w+)?`. -/
def funcCore (l : List Char) : Option (List Char × List Char) :=
  match stripLit "def".data l with
  | none => none
  | some r1 =>
    match ws1 r1 with
    | none => none
    | some r2 =>
      let nm := r2.takeWhile isWordChar
      if nm.isEmpty then none
      else
        match dropSpaces (r2.dropWhile isWordChar) with
        | '(' :: r4 =>
          match r4.dropWhile (fun c => !(c == ')')) with
          | ')' :: r6 => some (retOpt r6, nm)
          | _ => none
        | _ => none

/-- The document-symbol function pattern
`(?:static\s+|final\s+|abstract\s+)?def\s+(\w+)\s*\([^)]*\)(?:\s*->\s*\w+)?`. -/
def funcStepSym (l : List Char) : Option (List Char × List Char) :=
  match tryMod l with
  | some r => funcCore r
  | none => funcCore l

/-- Core of the completion class pattern `class\s+(\w+)`. -/
def classCoreC (l : List Char) : Option (List Char × List Char) :=
  match stripLit "class".data l with
  | none => none
  | some r1 =>
    match ws1 r1 with
    | none => none
    | some r2 =>
      let nm := r2.takeWhile isWordChar
      if nm.isEmpty then none else some (r2.dropWhile isWordChar, nm)

/-- The completion class pattern `(?:abstract\s+|final\s+)?class\s+(\w+)`. -/
def classStepC (l : List Char) : Option (List Char × List Char) :=
  match tryModAF l with
  | some r => classCoreC r
  | none => classCoreC l

/-- The completion function pattern `def\s+(\w+)\s*\(`. -/
def funcStepC (l : List Char) : Option (List Char × List Char) :=
  match stripLit "def".data l with
  | none => none
  | some r1 =>
    match ws1 r1 with
    | none => none
    | some r2 =>
      let nm := r2.takeWhile isWordChar
      if nm.isEmpty then none
      else
        match dropSpaces (r2.dropWhile isWordChar) with
        | '(' :: r4 => some (r4, nm)
        | _ => none

/-! ### Shadow detector matchers -/

/-- Core of the shadow-detector function pattern: `def\s+(\w+)\s*\(`,
anchored at the start of the (trimmed) line. -/
def matchDefCore (l : List Char) : Option (List Char) :=
  match stripLit "def".data l with
  | none => none
  | some r1 =>
    match ws1 r1 with
    | none => none
    | some r2 =>
      let nm := r2.takeWhile isWordChar
      if nm.isEmpty then none
      else
        match dropSpaces (r2.dropWhile isWordChar) with
        | '(' :: _ => some nm
        | _ => none

/-- The shadow-detector function-definition pattern
`^(?:(?:static|final|abstract)\s+)*def\s+(\w+)\s*\(`: consume modifier
units greedily, then the `def` core.  `fuel` bounds the number of modifier
units; every unit consumes at least six characters, so `l.length + 1`
always suffices. -/
def matchFuncDefAux : Nat → List Char → Option (List Char)
  | 0, _ => none
  | fuel + 1, l =>
    match tryMod l with
    | some r => matchFuncDefAux fuel r
    | none => matchDefCore l

/-- The shadow-detector function-definition pattern with sufficient fuel. -/
def matchFuncDef (l : List Char) : Option (List Char) :=
  matchFuncDefAux (l.length + 1) l

/-- The shadow-detector assignment pattern `^(\w+)\s*=`. -/
def matchAssign (l : List Char) : Option (List Char) :=
  let w := l.takeWhile isWordChar
  if w.isEmpty then none
  else
    match dropSpaces (l.dropWhile isWordChar) with
    | '=' :: _ => some w
    | _ => none

/-- The reserved built-in name set `PYTHON_BUILTINS` of the source. -/
def PY_BUILTINS : List (List Char) :=
  ["abs".data, "aiter".data, "all".data, "anext".data, "any".data, "ascii".data,
   "bin".data, "bool".data, "breakpoint".data, "bytearray".data, "bytes".data,
   "callable".data, "chr".data, "classmethod".data, "compile".data, "complex".data,
   "delattr".data, "dict".data, "dir".data, "divmod".data, "enumerate".data,
   "eval".data, "exec".data, "filter".data, "float".data, "format".data,
   "frozenset".data, "getattr".data, "globals".data, "hasattr".data, "hash".data,
   "help".data, "hex".data, "id".data, "input".data, "int".data, "isinstance".data,
   "issubclass".data, "iter".data, "len".data, "list".data, "locals".data,
   "map".data, "max".data, "memoryview".data, "min".data, "next".data,
   "object".data, "oct".data, "open".data, "ord".data, "pow".data, "print".data,
   "property".data, "range".data, "repr".data, "reversed".data, "round".data,
   "set".data, "setattr".data, "slice".data, "sorted".data, "staticmethod".data,
   "str".data, "sum".data, "super".data, "tuple".data, "type".data, "vars".data,
   "zip".data, "__import__".data]

/-- `PYTHON_BUILTINS.includes(name)`. -/
def builtinMem (nm : List Char) : Bool := PY_BUILTINS.any (fun b => b == nm)

/-- Kind of a built-in override (`'function' | 'assignment'`). -/
inductive OvKind
  | fnDef
  | assign
deriving DecidableEq

/-- A `BuiltinOverride` record: name, 1-based line number, kind. -/
structure Override where
  name : List Char
  line : Nat
  kind : OvKind
deriving DecidableEq

/-- Skip test of the shadow detector: the trimmed line is empty or starts
with `#` or `//`. -/
def skipLine (t : List Char) : Bool :=
  t.isEmpty || isPrefixB "#".data t || isPrefixB "//".data t

/-- The contribution of one line (0-based index `i`) to the override list:
trim, skip blank/comment lines, then run the function-definition check and
the assignment check (the latter guarded against lines containing a
two-character comparison operator). -/
def lineOverrides (i : Nat) (line : List Char) : List Override :=
  let t := trimChars line
  if skipLine t then []
  else
    (match matchFuncDef t with
     | some nm => if builtinMem nm then [⟨nm, i + 1, OvKind.fnDef⟩] else []
     | none => []) ++
    (match matchAssign t with
     | some nm =>
       if !hasSubstr "==".data t && !hasSubstr "!=".data t &&
           !hasSubstr "<=".data t && !hasSubstr ">=".data t && builtinMem nm
       then [⟨nm, i + 1, OvKind.assign⟩] else []
     | none => [])

/-- The shadow detector's loop over the 0-indexed lines. -/
def ovAux : Nat → List (List Char) → List Override
  | _, [] => []
  | i, l :: ls => lineOverrides i l ++ ovAux (i + 1) ls

/-- `detectBuiltinOverrides`: split the text into lines and collect the
per-line overrides in line order. -/
def detectBuiltinOverrides (text : List Char) : List Override :=
  ovAux 0 (splitLines text)

/-! ### Diagnostic generator -/

/-- Diagnostic severity (every diagnostic the generator emits is a
Warning). -/
inductive Severity
  | warning
deriving DecidableEq

/-- A diagnostic: line, one-character column range, message, severity and
code. -/
structure Diag where
  line : Nat
  colStart : Nat
  colEnd : Nat
  message : List Char
  sev : Severity
  code : List Char
deriving DecidableEq

/-- `VALID_LINE_ENDINGS`: the accepted statement terminators (each source
entry is a one-character string). -/
def validEndings : List Char := [';', ':', '{', '}']

/-- `trimmed.endsWith(c)` for a one-character string `c`. -/
def endsWithChar (t : List Char) (c : Char) : Bool := t.getLast? == some c

/-- The fixed diagnostic message of the generator. -/
def msgSemicolon : List Char := "Statement should end with a semicolon".data

/-- The fixed diagnostic code of the generator. -/
def codeMissing : List Char := "spice-missing-semicolon".data

/-- The contribution of one line (0-based index `i`) to the diagnostics:
skip lines blank after trimming; emit one Warning anchored at the last
character of the raw line when the trimmed line does not end with an
accepted terminator. -/
def lineDiags (i : Nat) (line : List Char) : List Diag :=
  let t := trimChars line
  if t.isEmpty then []
  else if validEndings.any (fun c => endsWithChar t c) then []
  else [⟨i, line.length - 1, line.length, msgSemicolon, Severity.warning, codeMissing⟩]

/-- The diagnostic loop over the 0-indexed lines. -/
def dgAux : Nat → List (List Char) → List Diag
  | _, [] => []
  | i, l :: ls => lineDiags i l ++ dgAux (i + 1) ls

/-- The diagnostic computation of `updateDiagnostics` (the part after the
host configuration gate): split on newlines and collect the per-line
diagnostics. -/
def updateDiagnosticsList (text : List Char) : List Diag :=
  dgAux 0 (splitLines text)

/-! ### Global regex scanning (`RegExp.exec` with the `g` flag) -/

/-- Leftmost match: try the matcher at offset 0, 1, … of the list
(including the empty suffix, as `exec` does); return the offset of the
first success together with the matcher's result. -/
def scanFirst {α : Type} (step : List Char → Option α) : List Char → Option (Nat × α)
  | [] => (step []).map (fun v => (0, v))
  | c :: rest =>
    match step (c :: rest) with
    | some v => some (0, v)
    | none => (scanFirst step rest).map (fun p => (p.1 + 1, p.2))

/-- All matches of a global regex: repeatedly find the leftmost match and
continue after its end (advancing at least one character, as `exec`
advances `lastIndex` past an empty match).  Returns `(index, name)` pairs;
`fuel` bounds the iteration and `text.length + 1` always suffices because
every step advances. -/
def allMatchesAux (step : List Char → Option (List Char × List Char)) :
    Nat → List Char → Nat → List (Nat × List Char)
  | 0, _, _ => []
  | fuel + 1, l, base =>
    match scanFirst step l with
    | none => []
    | some (d, rest, nm) =>
      let len := (l.drop d).length - rest.length
      (base + d, nm) :: allMatchesAux step fuel (l.drop (d + max len 1)) (base + d + max len 1)

/-- All `(match.index, captured name)` pairs of a global pattern over the
text, in match order. -/
def allMatches (step : List Char → Option (List Char × List Char)) (text : List Char) :
    List (Nat × List Char) :=
  allMatchesAux step (text.length + 1) text 0

/-! ### Symbol scanner -/

/-- Symbol kinds of the document symbol provider. -/
inductive SymKind
  | cls
  | iface
  | fn
deriving DecidableEq

/-- Order in which `provideDocumentSymbols` runs its three scans. -/
def kindRank : SymKind → Nat
  | SymKind.cls => 0
  | SymKind.iface => 1
  | SymKind.fn => 2

/-- A document symbol: name, kind, declaration offset (`match.index`), and
the computed range. -/
structure SpSymbol where
  name : List Char
  kind : SymKind
  declOffset : Nat
  rangeStart : Nat × Nat
  rangeEnd : Nat × Nat
deriving DecidableEq

/-- Build the symbols of one scan: each match becomes a symbol whose range
start is `positionAt(match.index)` and whose range end is
`findBlockEnd` from that start. -/
def mkSyms (text : List Char) (kind : SymKind) (ms : List (Nat × List Char)) : List SpSymbol :=
  ms.map fun m =>
    let start := positionAt text m.1
    ⟨m.2, kind, m.1, start, findBlockEnd (splitLines text) start⟩

/-- `SpiceDocumentSymbolProvider.provideDocumentSymbols`: the class scan,
then the interface scan, then the function scan. -/
def docSymbols (text : List Char) : List SpSymbol :=
  mkSyms text SymKind.cls (allMatches classStepSym text) ++
    mkSyms text SymKind.iface (allMatches interfaceStep text) ++
    mkSyms text SymKind.fn (allMatches funcStepSym text)

/-- `SpiceCompletionItemProvider.parseDocumentSymbols`: the user-defined
completion items (label and kind), in the order the three scans produce
them. -/
def parseDocumentSymbols (text : List Char) : List (List Char × SymKind) :=
  (allMatches classStepC text).map (fun m => (m.2, SymKind.cls)) ++
    (allMatches interfaceStep text).map (fun m => (m.2, SymKind.iface)) ++
    (allMatches funcStepC text).map (fun m => (m.2, SymKind.fn))

/-! ### Definition provider (`SpiceDefinitionProvider.provideDefinition`)

The three patterns are built from the looked-up word:
`(?:abstract\s+|final\s+)?class\s+word\b`, `interface\s+word\b` and
`def\s+word\s*\(`.  Each matcher returns the remainder after the match, so
the matched substring is recovered from the length difference.  The word
supplied by the editor is a nonempty run of word characters
(`getWordRangeAtPosition`), which is what makes the trailing `\b` of the
first two patterns equivalent to "the next character, if any, is not a
word character". -/

/-- A word as produced by `getWordRangeAtPosition`: nonempty, all word
characters. -/
def validWord (w : List Char) : Bool := !w.isEmpty && w.all isWordChar

/-- Word boundary `\b` placed directly after a word character: the next
character is absent or not a word character. -/
def boundaryOk : List Char → Bool
  | [] => true
  | c :: _ => !isWordChar c

/-- Core of the definition-provider class pattern: `class\s+word\b`. -/
def classCoreW (w l : List Char) : Option (List Char) :=
  match stripLit "class".data l with
  | none => none
  | some r1 =>
    match ws1 r1 with
    | none => none
    | some r2 =>
      match stripLit w r2 with
      | none => none
      | some r3 => if boundaryOk r3 then some r3 else none

/-- The definition-provider class pattern
`(?:abstract\s+|final\s+)?class\s+word\b`. -/
def classStepW (w l : List Char) : Option (List Char) :=
  match tryModAF l with
  | some r => classCoreW w r
  | none => classCoreW w l

/-- The definition-provider interface pattern `interface\s+word\b`. -/
def ifaceStepW (w l : List Char) : Option (List Char) :=
  match stripLit "interface".data l with
  | none => none
  | some r1 =>
    match ws1 r1 with
    | none => none
    | some r2 =>
      match stripLit w r2 with
      | none => none
      | some r3 => if boundaryOk r3 then some r3 else none

/-- The definition-provider method pattern `def\s+word\s*\(`. -/
def defStepW (w l : List Char) : Option (List Char) :=
  match stripLit "def".data l with
  | none => none
  | some r1 =>
    match ws1 r1 with
    | none => none
    | some r2 =>
      match stripLit w r2 with
      | none => none
      | some r3 =>
        match dropSpaces r3 with
        | '(' :: r4 => some r4
        | _ => none

/-- The matched substring (`match[0]`) of a matcher at offset `d` of the
text. -/
def matchedAt (step : List Char → Option (List Char)) (text : List Char) (d : Nat) :
    List Char :=
  match step (text.drop d) with
  | some rest => (text.drop d).take ((text.drop d).length - rest.length)
  | none => []

/-- The location a match at offset `d` yields:
`positionAt(match.index + match[0].indexOf(word))`. -/
def stepLocOf (step : List Char → Option (List Char)) (text w : List Char) (d : Nat) :
    Nat × Nat :=
  positionAt text (d + subIdx w (matchedAt step text d))

/-- `SpiceDefinitionProvider.provideDefinition` (given the looked-up word):
first class match, else first interface match, else first method match,
else nothing; the returned position points at the word inside the matched
text. -/
def sdDefinition (text w : List Char) : Option (Nat × Nat) :=
  match scanFirst (classStepW w) text with
  | some (d, rest) =>
    let m := (text.drop d).take ((text.drop d).length - rest.length)
    some (positionAt text (d + subIdx w m))
  | none =>
    match scanFirst (ifaceStepW w) text with
    | some (d, rest) =>
      let m := (text.drop d).take ((text.drop d).length - rest.length)
      some (positionAt text (d + subIdx w m))
    | none =>
      match scanFirst (defStepW w) text with
      | some (d, rest) =>
        let m := (text.drop d).take ((text.drop d).length - rest.length)
        some (positionAt text (d + subIdx w m))
      | none => none

/-- `d` is the index of the leftmost match of a pattern over the text. -/
def isFirstMatch (step : List Char → Option (List Char)) (text : List Char) (d : Nat) :
    Prop :=
  step (text.drop d) ≠ none ∧ ∀ j, j < d → step (text.drop j) = none

/-- The pattern matches nowhere in the text. -/
def noMatch (step : List Char → Option (List Char)) (text : List Char) : Prop :=
  ∀ j, step (text.drop j) = none

/-- The resolve-by-name contract: any returned location comes from the
leftmost match of the highest-precedence pattern that matches anywhere
(class, then interface, then method), and `none` is returned exactly when
no pattern matches. -/
def DefinitionPrecedence (text w : List Char) : Prop :=
  (∀ p, sdDefinition text w = some p →
      (∃ d, isFirstMatch (classStepW w) text d ∧ p = stepLocOf (classStepW w) text w d) ∨
      (noMatch (classStepW w) text ∧
        ∃ d, isFirstMatch (ifaceStepW w) text d ∧ p = stepLocOf (ifaceStepW w) text w d) ∨
      (noMatch (classStepW w) text ∧ noMatch (ifaceStepW w) text ∧
        ∃ d, isFirstMatch (defStepW w) text d ∧ p = stepLocOf (defStepW w) text w d)) ∧
  (sdDefinition text w = none ↔
    noMatch (classStepW w) text ∧ noMatch (ifaceStepW w) text ∧ noMatch (defStepW w) text)

/-- Grouped output order of the symbol scanner: symbols ordered first by
scan group (class, interface, function), then by declaration offset within
a group. -/
def symOrder (a b : SpSymbol) : Prop :=
  kindRank a.kind < kindRank b.kind ∨
    (kindRank a.kind = kindRank b.kind ∧ a.declOffset < b.declOffset)

/-- The shadow detector's per-line contract: override line numbers are
strictly increasing (hence each line contributes at most one override —
never both a function-definition and an assignment override), and a line
that is blank after trimming or starts with `#` or `//` contributes no
override. -/
def OverridePerLine (text : List Char) : Prop :=
  List.Pairwise (fun a b : Override => a.line < b.line) (detectBuiltinOverrides text) ∧
  ∀ i line, (splitLines text).get? i = some line → skipLine (trimChars line) = true →
    ∀ o ∈ detectBuiltinOverrides text, o.line ≠ i + 1

/-! ## Lemmas -/

lemma scanFirst_eq_some {α : Type} (step : List Char → Option α) :
    ∀ (l : List Char) (d : Nat) (v : α), scanFirst step l = some (d, v) →
      step (l.drop d) = some v ∧ ∀ j, j < d → step (l.drop j) = none := by
  intro l
  induction l with
  | nil =>
    intro d v h
    simp only [scanFirst] at h
    cases hs : step [] with
    | none => rw [hs] at h; cases h
    | some w =>
      rw [hs] at h
      simp only [Option.map_some'] at h
      cases h
      exact ⟨hs, fun j hj => absurd hj (Nat.not_lt_zero _)⟩
  | cons c rest ih =>
    intro d v h
    simp only [scanFirst] at h
    cases hs : step (c :: rest) with
    | some w =>
      rw [hs] at h
      cases h
      exact ⟨hs, fun j hj => absurd hj (Nat.not_lt_zero _)⟩
    | none =>
      rw [hs] at h
      cases hr : scanFirst step rest with
      | none => rw [hr] at h; cases h
      | some p =>
        obtain ⟨e, v2⟩ := p
        rw [hr] at h
        simp only [Option.map_some', Option.some.injEq, Prod.mk.injEq] at h
        obtain ⟨hd, hv⟩ := h
        subst hd
        subst hv
        obtain ⟨h1, h2⟩ := ih e v2 hr
        refine ⟨h1, fun j hj => ?_⟩
        cases j with
        | zero => exact hs
        | succ j2 => exact h2 j2 (by omega)

lemma scanFirst_eq_none {α : Type} (step : List Char → Option α) :
    ∀ l : List Char, scanFirst step l = none ↔ ∀ j, step (l.drop j) = none := by
  intro l
  induction l with
  | nil =>
    simp only [scanFirst, List.drop_nil, Option.map_eq_none']
    exact ⟨fun h _ => h, fun h => h 0⟩
  | cons c rest ih =>
    constructor
    · intro h j
      simp only [scanFirst] at h
      cases hs : step (c :: rest) with
      | some w => rw [hs] at h; cases h
      | none =>
        rw [hs] at h
        cases j with
        | zero => exact hs
        | succ j2 =>
          rw [Option.map_eq_none'] at h
          exact (ih.1 h) j2
    · intro h
      simp only [scanFirst]
      have h0 := h 0
      rw [List.drop_zero] at h0
      rw [h0]
      rw [Option.map_eq_none']
      exact ih.2 (fun j => h (j + 1))

lemma allMatchesAux_lb (step : List Char → Option (List Char × List Char)) :
    ∀ (fuel : Nat) (l : List Char) (base : Nat) (m : Nat × List Char),
      m ∈ allMatchesAux step fuel l base → base ≤ m.1 := by
  intro fuel
  induction fuel with
  | zero => intro l base m h; simp [allMatchesAux] at h
  | succ n ih =>
    intro l base m h
    simp only [allMatchesAux] at h
    cases hs : scanFirst step l with
    | none => rw [hs] at h; simp at h
    | some p =>
      obtain ⟨d, rest, nm⟩ := p
      rw [hs] at h
      simp only [List.mem_cons] at h
      rcases h with h | h
      · subst h; exact Nat.le_add_right _ _
      · have := ih _ _ _ h
        omega

lemma allMatchesAux_sorted (step : List Char → Option (List Char × List Char)) :
    ∀ (fuel : Nat) (l : List Char) (base : Nat),
      List.Pairwise (fun a b => a.1 < b.1) (allMatchesAux step fuel l base) := by
  intro fuel
  induction fuel with
  | zero => intro l base; simp [allMatchesAux]
  | succ n ih =>
    intro l base
    simp only [allMatchesAux]
    cases hs : scanFirst step l with
    | none => exact List.Pairwise.nil
    | some p =>
      obtain ⟨d, rest, nm⟩ := p
      refine List.Pairwise.cons ?_ (ih _ _)
      intro m hm
      have := allMatchesAux_lb step _ _ _ _ hm
      have hmax : 1 ≤ max ((l.drop d).length - rest.length) 1 := le_max_right _ _
      simp only
      omega

lemma allMatches_sorted (step : List Char → Option (List Char × List Char)) (text : List Char) :
    List.Pairwise (fun a b => a.1 < b.1) (allMatches step text) :=
  allMatchesAux_sorted step _ text 0


lemma braceDelta_cons (x : Nat × Nat × Char) (cs : List (Nat × Nat × Char)) :
    braceDelta (x :: cs) = charDelta x.2.2 + braceDelta cs := by
  simp [braceDelta]

lemma closesAtG_zero (d : Int) (f : Bool) (x : Nat × Nat × Char) (cs : List (Nat × Nat × Char)) :
    closesAtG d f (x :: cs) 0 =
      ((x.2.2 == '}') && (d + charDelta x.2.2 == 0) && f) := by
  simp [closesAtG, braceDelta]

lemma closesAtG_succ (d : Int) (f : Bool) (x : Nat × Nat × Char) (cs : List (Nat × Nat × Char))
    (k : Nat) :
    closesAtG d f (x :: cs) (k + 1) =
      closesAtG (d + charDelta x.2.2) (f || (x.2.2 == '{')) cs k := by
  unfold closesAtG
  show (match cs.get? k with
    | some t => (t.2.2 == '}') && (d + braceDelta ((x :: cs).take (k + 1 + 1)) == 0) &&
        (f || ((x :: cs).take (k + 1)).any (fun y => y.2.2 == '{'))
    | none => false) = _
  cases h : cs.get? k with
  | none => rfl
  | some t =>
    have ht : (x :: cs).take (k + 1 + 1) = x :: cs.take (k + 1) := rfl
    have ht2 : (x :: cs).take (k + 1) = x :: cs.take k := rfl
    rw [ht, ht2, braceDelta_cons]
    simp only [List.any_cons]
    rw [show d + (charDelta x.2.2 + braceDelta (cs.take (k + 1))) =
          d + charDelta x.2.2 + braceDelta (cs.take (k + 1)) from (Int.add_assoc _ _ _).symm,
        Bool.or_assoc]

lemma closesAtG_of_ge (d : Int) (f : Bool) (cs : List (Nat × Nat × Char)) (k : Nat)
    (h : cs.length ≤ k) : closesAtG d f cs k = false := by
  unfold closesAtG
  rw [List.get?_eq_none.2 h]

lemma scanBlock_eq_none :
    ∀ (cs : List (Nat × Nat × Char)) (d : Int) (f : Bool),
      (∀ k, closesAtG d f cs k = false) → scanBlock cs d f = none := by
  intro cs
  induction cs with
  | nil => intro d f _; rfl
  | cons x rest ih =>
    intro d f h
    have hshift : ∀ k, closesAtG (d + charDelta x.2.2) (f || (x.2.2 == '{')) rest k = false :=
      fun k => by rw [← closesAtG_succ]; exact h (k + 1)
    simp only [scanBlock]
    cases hx : (x.2.2 == '{') with
    | true =>
      simp only [if_pos rfl]
      have hd : charDelta x.2.2 = 1 := by unfold charDelta; rw [hx]; rfl
      have := ih (d + 1) true (fun k => by
        have := hshift k
        rwa [hd, hx, Bool.or_true] at this)
      simpa using this
    | false =>
      rw [if_neg (by simp [hx])]
      cases hy : (x.2.2 == '}') with
      | true =>
        rw [if_pos rfl]
        have hd : charDelta x.2.2 = -1 := by unfold charDelta; rw [hx, hy]; rfl
        have h0 := h 0
        rw [closesAtG_zero, hy, hd] at h0
        simp only [Bool.true_and] at h0
        rw [if_neg]
        · exact ih (d - 1) f (fun k => by
            have := hshift k
            rwa [hd, hx, Bool.or_false, ← Int.sub_eq_add_neg] at this)
        · intro hcond
          obtain ⟨hf, hdz⟩ := hcond
          rw [hf, Bool.and_true] at h0
          have : d + (-1) = 0 := by omega
          rw [this] at h0
          simp at h0
      | false =>
        rw [if_neg (by simp [hy])]
        have hd : charDelta x.2.2 = 0 := by unfold charDelta; rw [hx, hy]; rfl
        exact ih d f (fun k => by
          have := hshift k
          rwa [hd, hx, Bool.or_false, Int.add_zero] at this)

lemma scanBlock_eq_some_of_least :
    ∀ (cs : List (Nat × Nat × Char)) (d : Int) (f : Bool) (k : Nat),
      closesAtG d f cs k = true → (∀ j, j < k → closesAtG d f cs j = false) →
      ∃ t, cs.get? k = some t ∧ scanBlock cs d f = some (t.1, t.2.1) := by
  intro cs
  induction cs with
  | nil =>
    intro d f k hk _
    rw [closesAtG_of_ge d f [] k (Nat.zero_le _)] at hk
    cases hk
  | cons x rest ih =>
    intro d f k hk hleast
    cases k with
    | zero =>
      rw [closesAtG_zero] at hk
      simp only [Bool.and_eq_true, beq_iff_eq] at hk
      obtain ⟨⟨h1, h2⟩, h3⟩ := hk
      refine ⟨x, rfl, ?_⟩
      have hd : charDelta x.2.2 = -1 := by unfold charDelta; rw [h1]; rfl
      rw [hd] at h2
      simp only [scanBlock]
      rw [if_neg (by rw [h1]; simp), if_pos (by rw [h1]; decide), if_pos ⟨h3, by omega⟩]
    | succ k2 =>
      have h0 : closesAtG d f (x :: rest) 0 = false := hleast 0 (Nat.succ_pos _)
      rw [closesAtG_succ] at hk
      have hleast2 : ∀ j, j < k2 →
          closesAtG (d + charDelta x.2.2) (f || (x.2.2 == '{')) rest j = false :=
        fun j hj => by rw [← closesAtG_succ]; exact hleast (j + 1) (by omega)
      obtain ⟨t, hget, hscan⟩ := ih _ _ _ hk hleast2
      refine ⟨t, hget, ?_⟩
      simp only [scanBlock]
      cases hx : (x.2.2 == '{') with
      | true =>
        rw [if_pos rfl]
        have hd : charDelta x.2.2 = 1 := by unfold charDelta; rw [hx]; rfl
        rw [hd, hx, Bool.or_true] at hscan
        exact hscan
      | false =>
        rw [if_neg (by simp [hx])]
        cases hy : (x.2.2 == '}') with
        | true =>
          rw [if_pos rfl]
          have hd : charDelta x.2.2 = -1 := by unfold charDelta; rw [hx, hy]; rfl
          rw [closesAtG_zero, hy, hd] at h0
          simp only [Bool.true_and] at h0
          rw [if_neg]
          · rw [hd, hx, Bool.or_false, ← Int.sub_eq_add_neg] at hscan
            exact hscan
          · intro hcond
            obtain ⟨hf, hdz⟩ := hcond
            rw [hf, Bool.and_true] at h0
            have : d + (-1) = 0 := by omega
            rw [this] at h0
            simp at h0
        | false =>
          rw [if_neg (by simp [hy])]
          have hd : charDelta x.2.2 = 0 := by unfold charDelta; rw [hx, hy]; rfl
          rw [hd, hx, Bool.or_false, Int.add_zero] at hscan
          exact hscan

lemma scanBlock_mem :
    ∀ (cs : List (Nat × Nat × Char)) (d : Int) (f : Bool) (p : Nat × Nat),
      scanBlock cs d f = some p → (p.1, p.2, '}') ∈ cs := by
  intro cs
  induction cs with
  | nil => intro d f p h; cases h
  | cons x rest ih =>
    intro d f p h
    simp only [scanBlock] at h
    cases hx : (x.2.2 == '{') with
    | true =>
      rw [hx] at h
      simp only [if_pos] at h
      exact List.mem_cons_of_mem _ (ih _ _ _ h)
    | false =>
      rw [hx] at h
      simp only [Bool.false_eq_true, if_false] at h
      cases hy : (x.2.2 == '}') with
      | true =>
        rw [hy] at h
        simp only [if_pos] at h
        split at h
        · obtain ⟨a, b, c⟩ := x
          simp only at hy
          cases h
          simp only [beq_iff_eq] at hy
          subst hy
          exact List.mem_cons_self _ _
        · exact List.mem_cons_of_mem _ (ih _ _ _ h)
      | false =>
        rw [hy] at h
        simp only [Bool.false_eq_true, if_false] at h
        exact List.mem_cons_of_mem _ (ih _ _ _ h)

lemma tagChars_mem (i : Nat) :
    ∀ (cs : List Char) (j0 : Nat) (x : Nat × Nat × Char),
      x ∈ tagChars i j0 cs → x.1 = i ∧ j0 ≤ x.2.1 := by
  intro cs
  induction cs with
  | nil => intro j0 x h; cases h
  | cons c rest ih =>
    intro j0 x h
    simp only [tagChars, List.mem_cons] at h
    rcases h with h | h
    · subst h; exact ⟨rfl, Nat.le_refl _⟩
    · obtain ⟨h1, h2⟩ := ih _ _ h
      exact ⟨h1, by omega⟩

lemma tagLines_mem :
    ∀ (ls : List (List Char)) (k : Nat) (p : Nat × List Char),
      p ∈ tagLines k ls → k ≤ p.1 := by
  intro ls
  induction ls with
  | nil => intro k p h; cases h
  | cons l rest ih =>
    intro k p h
    simp only [tagLines, List.mem_cons] at h
    rcases h with h | h
    · subst h; exact Nat.le_refl _
    · have := ih _ _ h
      omega

lemma visited_bound (lines : List (List Char)) (sl sc : Nat) (x : Nat × Nat × Char)
    (h : x ∈ visited lines sl sc) : posLe (sl, sc) (x.1, x.2.1) := by
  unfold visited at h
  cases hd : lines.drop sl with
  | nil => rw [hd] at h; cases h
  | cons l rest =>
    rw [hd] at h
    rcases List.mem_append.1 h with h | h
    · obtain ⟨h1, h2⟩ := tagChars_mem _ _ _ _ h
      exact Or.inr ⟨h1.symm, h2⟩
    · rcases List.mem_flatMap.1 h with ⟨p, hp, hx⟩
      have hk := tagLines_mem _ _ _ hp
      obtain ⟨h1, _⟩ := tagChars_mem _ _ _ _ hx
      exact Or.inl (by omega)

lemma posLe_succ_col {a : Nat × Nat} {i j : Nat} (h : posLe a (i, j)) : posLe a (i, j + 1) := by
  rcases h with h | ⟨h1, h2⟩
  · exact Or.inl h
  · exact Or.inr ⟨h1, by omega⟩

/-- Either the block resolver's result lies at or after the start position
(a closing brace was found), or it is the degraded fallback
`(lineCount - 1, 0)`. -/
lemma findBlockEnd_cases (lines : List (List Char)) (sp : Nat × Nat) :
    posLe sp (findBlockEnd lines sp) ∨ findBlockEnd lines sp = (lines.length - 1, 0) := by
  unfold findBlockEnd
  cases hs : scanBlock (visited lines sp.1 sp.2) 0 false with
  | none => exact Or.inr rfl
  | some p =>
    left
    have hm := scanBlock_mem _ _ _ _ hs
    have hb := visited_bound lines sp.1 sp.2 _ hm
    have : posLe (sp.1, sp.2) (p.1, p.2) := hb
    exact posLe_succ_col this

lemma noClose_all {cs : List (Nat × Nat × Char)} (h : noClose cs = true) :
    ∀ k, closesAt cs k = false := by
  intro k
  by_cases hk : k < cs.length
  · have := List.all_eq_true.1 h k (List.mem_range.2 hk)
    simpa using this
  · exact closesAtG_of_ge 0 false cs k (by omega)

lemma takeWhile_all_append {p : Char → Bool} :
    ∀ (u l : List Char), (∀ a ∈ u, p a = true) → (u ++ l).takeWhile p = u ++ l.takeWhile p := by
  intro u
  induction u with
  | nil => intro l _; simp
  | cons a u2 ih =>
    intro l h
    have ha : p a = true := h a (List.mem_cons_self _ _)
    simp only [List.cons_append, List.takeWhile_cons, ha, if_true]
    rw [ih l (fun b hb => h b (List.mem_cons_of_mem _ hb))]

lemma dropWhile_all_append {p : Char → Bool} :
    ∀ (u l : List Char), (∀ a ∈ u, p a = true) → (u ++ l).dropWhile p = l.dropWhile p := by
  intro u
  induction u with
  | nil => intro l _; simp
  | cons a u2 ih =>
    intro l h
    have ha : p a = true := h a (List.mem_cons_self _ _)
    simp only [List.cons_append, List.dropWhile_cons, ha, if_true]
    exact ih l (fun b hb => h b (List.mem_cons_of_mem _ hb))

lemma stripLit_decomp : ∀ (p x y : List Char), stripLit p x = some y → x = p ++ y := by
  intro p
  induction p with
  | nil => intro x y h; cases h; rfl
  | cons a ps ih =>
    intro x y h
    cases x with
    | nil => cases h
    | cons c cs =>
      simp only [stripLit] at h
      split at h
      · rename_i hca
        have hca2 : c = a := eq_of_beq hca
        subst hca2
        rw [List.cons_append]
        exact congrArg (c :: ·) (ih cs y h)
      · cases h

lemma space_not_word {c : Char} (h : isSpaceChar c = true) : isWordChar c = false := by
  unfold isSpaceChar at h
  simp only [Bool.or_eq_true, beq_iff_eq] at h
  rcases h with ((((h | h) | h) | h) | h) | h <;> subst h <;> decide

lemma head_of_takeWhile_ne_nil {p : Char → Bool} (l : List Char)
    (h : l.takeWhile p ≠ []) : ∃ c cs, l = c :: cs ∧ p c = true := by
  cases l with
  | nil => simp [List.takeWhile_nil] at h
  | cons c cs =>
    rw [List.takeWhile_cons] at h
    by_cases hc : p c = true
    · exact ⟨c, cs, rfl, hc⟩
    · rw [if_neg hc] at h
      exact absurd rfl h

lemma matchAssign_eq_none_of (u : List Char) (s : Char) (t : List Char)
    (hu : u ≠ []) (hual : ∀ a ∈ u, isWordChar a = true) (hs : isSpaceChar s = true)
    {c : Char} {cs : List Char} (hdrop : dropSpaces t = c :: cs) (hc : isWordChar c = true) :
    matchAssign (u ++ s :: t) = none := by
  have hsw : isWordChar s = false := space_not_word hs
  have h1 : (u ++ s :: t).takeWhile isWordChar = u := by
    rw [takeWhile_all_append u (s :: t) hual]
    simp [List.takeWhile_cons, hsw]
  have h2 : (u ++ s :: t).dropWhile isWordChar = s :: t := by
    rw [dropWhile_all_append u (s :: t) hual]
    simp [List.dropWhile_cons, hsw]
  have h3 : dropSpaces (s :: t) = c :: cs := by
    unfold dropSpaces
    rw [List.dropWhile_cons, if_pos hs]
    exact hdrop
  have h4 : u.isEmpty = false := by
    cases u with
    | nil => exact absurd rfl hu
    | cons a b => rfl
  simp only [matchAssign, h1, h2, h3, h4, Bool.false_eq_true, if_false]
  split
  · rename_i heq
    rw [List.cons.injEq] at heq
    obtain ⟨hce, _⟩ := heq
    subst hce
    cases hc
  · rfl

lemma tryMod_decomp {l r : List Char} (h : tryMod l = some r) :
    ∃ u s t, (u = "static".data ∨ u = "final".data ∨ u = "abstract".data) ∧
      l = u ++ s :: t ∧ isSpaceChar s = true ∧ r = dropSpaces t := by
  unfold tryMod at h
  cases h1 : stripLit "static".data l with
  | some r1 =>
    rw [h1] at h
    cases r1 with
    | nil => cases h
    | cons s t =>
      simp only [ws1] at h
      split at h
      · rename_i hs
        cases h
        exact ⟨_, s, t, Or.inl rfl, stripLit_decomp _ _ _ h1, hs, rfl⟩
      · cases h
  | none =>
    rw [h1] at h
    cases h2 : stripLit "final".data l with
    | some r1 =>
      rw [h2] at h
      cases r1 with
      | nil => cases h
      | cons s t =>
        simp only [ws1] at h
        split at h
        · rename_i hs
          cases h
          exact ⟨_, s, t, Or.inr (Or.inl rfl), stripLit_decomp _ _ _ h2, hs, rfl⟩
        · cases h
    | none =>
      rw [h2] at h
      cases h3 : stripLit "abstract".data l with
      | some r1 =>
        rw [h3] at h
        cases r1 with
        | nil => cases h
        | cons s t =>
          simp only [ws1] at h
          split at h
          · rename_i hs
            cases h
            exact ⟨_, s, t, Or.inr (Or.inr rfl), stripLit_decomp _ _ _ h3, hs, rfl⟩
          · cases h
      | none => rw [h3] at h; cases h

lemma ws1_some {x r : List Char} (h : ws1 x = some r) :
    ∃ s t, x = s :: t ∧ isSpaceChar s = true ∧ r = dropSpaces t := by
  cases x with
  | nil => cases h
  | cons s t =>
    simp only [ws1] at h
    split at h
    · rename_i hs
      cases h
      exact ⟨s, t, rfl, hs, rfl⟩
    · cases h

lemma matchDefCore_decomp {l nm : List Char} (h : matchDefCore l = some nm) :
    ∃ s t c cs, l = "def".data ++ s :: t ∧ isSpaceChar s = true ∧
      dropSpaces t = c :: cs ∧ isWordChar c = true := by
  unfold matchDefCore at h
  cases h1 : stripLit "def".data l with
  | none => rw [h1] at h; cases h
  | some r1 =>
    rw [h1] at h
    simp only [] at h
    cases hws : ws1 r1 with
    | none => rw [hws] at h; cases h
    | some r2 =>
      rw [hws] at h
      obtain ⟨s, t, hst, hs, hr2⟩ := ws1_some hws
      by_cases hnm : (r2.takeWhile isWordChar).isEmpty = true
      · simp [hnm] at h
      · obtain ⟨c, cs, hct, hc⟩ :=
          @head_of_takeWhile_ne_nil isWordChar r2
            (fun hnil => hnm (by rw [hnil]; rfl))
        subst hst
        exact ⟨s, t, c, cs, stripLit_decomp _ _ _ h1, hs, by rw [← hr2]; exact hct, hc⟩

lemma matchFuncDefAux_head :
    ∀ (fuel : Nat) (l nm : List Char), matchFuncDefAux fuel l = some nm →
      ∃ c cs, l = c :: cs ∧ isWordChar c = true := by
  intro fuel
  induction fuel with
  | zero => intro l nm h; cases h
  | succ n ih =>
    intro l nm h
    simp only [matchFuncDefAux] at h
    cases hm : tryMod l with
    | some r =>
      rw [hm] at h
      obtain ⟨u, s, t, hu3, hl, _, _⟩ := tryMod_decomp hm
      rcases hu3 with h3 | h3 | h3 <;> subst h3 <;> subst hl
      · exact ⟨'s', _, rfl, by decide⟩
      · exact ⟨'f', _, rfl, by decide⟩
      · exact ⟨'a', _, rfl, by decide⟩
    | none =>
      rw [hm] at h
      obtain ⟨s, t, c2, cs2, hl, _, _, _⟩ := matchDefCore_decomp h
      subst hl
      exact ⟨'d', _, rfl, by decide⟩

/-- The function-definition pattern and the assignment pattern of the
shadow detector are mutually exclusive on every line. -/
lemma matchFuncDefAux_excl :
    ∀ (fuel : Nat) (l nm : List Char), matchFuncDefAux fuel l = some nm →
      matchAssign l = none := by
  intro fuel
  induction fuel with
  | zero => intro l nm h; cases h
  | succ n ih =>
    intro l nm h
    simp only [matchFuncDefAux] at h
    cases hm : tryMod l with
    | some r =>
      rw [hm] at h
      obtain ⟨u, s, t, hu3, hl, hs, hr⟩ := tryMod_decomp hm
      obtain ⟨c, cs, hrc, hc⟩ := matchFuncDefAux_head n r nm h
      subst hl
      have hdrop2 : dropSpaces t = c :: cs := by rw [← hr]; exact hrc
      refine matchAssign_eq_none_of u s t ?_ ?_ hs hdrop2 hc
      · rcases hu3 with h3 | h3 | h3 <;> subst h3 <;> simp
      · rcases hu3 with h3 | h3 | h3 <;> subst h3 <;> decide
    | none =>
      rw [hm] at h
      obtain ⟨s, t, c, cs, hl, hs, hdrop, hc⟩ := matchDefCore_decomp h
      subst hl
      exact matchAssign_eq_none_of _ s t (by decide) (by decide) hs hdrop hc

lemma matchFuncDef_excl {l nm : List Char} (h : matchFuncDef l = some nm) :
    matchAssign l = none :=
  matchFuncDefAux_excl _ _ _ h

/-- Each line contributes no override or exactly one, and its line number
is the 1-based index of the line. -/
lemma lineOverrides_of_skip2 {i : Nat} {line : List Char}
    (h : skipLine (trimChars line) = true) : lineOverrides i line = [] := by
  simp only [lineOverrides]
  rw [if_pos h]

lemma lineOverrides_spec (i : Nat) (line : List Char) :
    lineOverrides i line = [] ∨
      ∃ o : Override, lineOverrides i line = [o] ∧ o.line = i + 1 := by
  by_cases hskip : skipLine (trimChars line) = true
  · exact Or.inl (lineOverrides_of_skip2 hskip)
  · cases hf : matchFuncDef (trimChars line) with
    | some nm =>
      have ha := matchFuncDef_excl hf
      by_cases hb : builtinMem nm = true
      · exact Or.inr ⟨⟨nm, i + 1, OvKind.fnDef⟩,
          by simp only [lineOverrides, if_neg hskip, hf, ha, if_pos hb]; rfl, rfl⟩
      · exact Or.inl (by simp only [lineOverrides, if_neg hskip, hf, ha, if_neg hb]; rfl)
    | none =>
      cases hg : matchAssign (trimChars line) with
      | none => exact Or.inl (by simp only [lineOverrides, if_neg hskip, hf, hg]; rfl)
      | some nm =>
        by_cases hb : (!hasSubstr "==".data (trimChars line) &&
            !hasSubstr "!=".data (trimChars line) &&
            !hasSubstr "<=".data (trimChars line) &&
            !hasSubstr ">=".data (trimChars line) && builtinMem nm) = true
        · exact Or.inr ⟨⟨nm, i + 1, OvKind.assign⟩,
            by simp only [lineOverrides, if_neg hskip, hf, hg, if_pos hb]; rfl, rfl⟩
        · exact Or.inl (by simp only [lineOverrides, if_neg hskip, hf, hg, if_neg hb]; rfl)

lemma lineOverrides_line {i : Nat} {line : List Char} {o : Override}
    (h : o ∈ lineOverrides i line) : o.line = i + 1 := by
  rcases lineOverrides_spec i line with hs | ⟨o2, hs, hl⟩
  · rw [hs] at h
    cases h
  · rw [hs] at h
    rw [List.mem_singleton.1 h]
    exact hl

lemma ovAux_mem : ∀ (ls : List (List Char)) (k : Nat) (o : Override),
    o ∈ ovAux k ls → ∃ j l, ls.get? j = some l ∧ o ∈ lineOverrides (k + j) l := by
  intro ls
  induction ls with
  | nil => intro k o h; cases h
  | cons l rest ih =>
    intro k o h
    simp only [ovAux] at h
    rcases List.mem_append.1 h with h | h
    · exact ⟨0, l, rfl, by simpa using h⟩
    · obtain ⟨j, l2, hg, hm⟩ := ih (k + 1) o h
      exact ⟨j + 1, l2, by simpa using hg, by rwa [show k + (j + 1) = k + 1 + j by omega]⟩

lemma ovAux_sorted : ∀ (ls : List (List Char)) (k : Nat),
    List.Pairwise (fun a b : Override => a.line < b.line) (ovAux k ls) := by
  intro ls
  induction ls with
  | nil => intro k; exact List.Pairwise.nil
  | cons l rest ih =>
    intro k
    simp only [ovAux]
    rw [List.pairwise_append]
    refine ⟨?_, ih (k + 1), ?_⟩
    · rcases lineOverrides_spec k l with hs | ⟨o, hs, _⟩ <;> rw [hs] <;> simp
    · intro a ha b hb
      have h1 : a.line = k + 1 := lineOverrides_line ha
      obtain ⟨j, l2, _, hm⟩ := ovAux_mem rest (k + 1) b hb
      have h2 : b.line = k + 1 + j + 1 := lineOverrides_line hm
      omega

lemma lineDiags_line {i : Nat} {line : List Char} {d : Diag} (h : d ∈ lineDiags i line) :
    d.line = i := by
  simp only [lineDiags] at h
  split at h
  · cases h
  · split at h
    · cases h
    · rw [List.mem_singleton.1 h]

lemma dgAux_lb : ∀ (ls : List (List Char)) (k : Nat) (d : Diag),
    d ∈ dgAux k ls → k ≤ d.line := by
  intro ls
  induction ls with
  | nil => intro k d h; cases h
  | cons l rest ih =>
    intro k d h
    simp only [dgAux] at h
    rcases List.mem_append.1 h with h | h
    · rw [lineDiags_line h]
    · have := ih (k + 1) d h
      omega

lemma dgAux_filter : ∀ (ls : List (List Char)) (k j : Nat) (line : List Char),
    ls.get? j = some line →
    (dgAux k ls).filter (fun d => d.line == k + j) = lineDiags (k + j) line := by
  intro ls
  induction ls with
  | nil => intro k j line h; cases h
  | cons l rest ih =>
    intro k j line h
    simp only [dgAux, List.filter_append]
    cases j with
    | zero =>
      have hl : l = line := by simpa using h
      subst hl
      simp only [Nat.add_zero]
      have h1 : (lineDiags k l).filter (fun d => d.line == k) = lineDiags k l := by
        apply List.filter_eq_self.2
        intro d hd
        have := lineDiags_line hd
        simp [this]
      have h2 : (dgAux (k + 1) rest).filter (fun d => d.line == k) = [] := by
        apply List.filter_eq_nil_iff.2
        intro d hd
        have := dgAux_lb rest (k + 1) d hd
        simp only [beq_iff_eq, decide_eq_true_eq]
        omega
      rw [h1, h2, List.append_nil]
    | succ j2 =>
      have hg : rest.get? j2 = some line := by simpa using h
      have h1 : (lineDiags k l).filter (fun d => d.line == k + (j2 + 1)) = [] := by
        apply List.filter_eq_nil_iff.2
        intro d hd
        have := lineDiags_line hd
        simp only [beq_iff_eq, decide_eq_true_eq]
        omega
      have h2 := ih (k + 1) j2 line hg
      rw [h1, List.nil_append, show k + (j2 + 1) = k + 1 + j2 by omega]
      exact h2

lemma mkSyms_kind {text : List Char} {k : SymKind} {ms : List (Nat × List Char)} {s : SpSymbol}
    (h : s ∈ mkSyms text k ms) : s.kind = k := by
  simp only [mkSyms, List.mem_map] at h
  obtain ⟨m, _, rfl⟩ := h
  rfl

lemma mkSyms_pairwise {text : List Char} {k : SymKind} {ms : List (Nat × List Char)}
    (h : List.Pairwise (fun a b => a.1 < b.1) ms) :
    List.Pairwise (fun a b : SpSymbol => a.declOffset < b.declOffset) (mkSyms text k ms) :=
  List.Pairwise.map _ (fun _ _ hab => hab) h

/-! ## Claim theorems -/

/-- Claim C1, counterexample: the symbol scanner's output is not sorted by
declaration offset — on a document whose function declaration precedes its
class declaration, the class symbol (offset 11) is emitted before the
function symbol (offset 0). -/
theorem C1_counterexample :
    (docSymbols "def f() \x7b\x7d\nclass C \x7b\x7d".data).map (fun s => s.declOffset) =
        [11, 0] ∧
      ¬ List.Pairwise (fun a b : SpSymbol => a.declOffset ≤ b.declOffset)
        (docSymbols "def f() \x7b\x7d\nclass C \x7b\x7d".data) :=
  ⟨by decide, by decide⟩

/-- Claim C1, amended: `provideDocumentSymbols` returns symbols grouped by
kind — all classes, then all interfaces, then all functions — and within
each group the declaration offsets are strictly increasing. -/
theorem C1_symbols_grouped_by_kind (text : List Char) :
    List.Pairwise symOrder (docSymbols text) := by
  have hgroup : ∀ (k : SymKind) (step : List Char → Option (List Char × List Char)),
      List.Pairwise symOrder (mkSyms text k (allMatches step text)) := by
    intro k step
    have h1 : List.Pairwise (fun a b : SpSymbol => a.declOffset < b.declOffset)
        (mkSyms text k (allMatches step text)) :=
      mkSyms_pairwise (allMatches_sorted step text)
    refine h1.imp_of_mem ?_
    intro a b ha hb hab
    exact Or.inr ⟨by rw [mkSyms_kind ha, mkSyms_kind hb], hab⟩
  unfold docSymbols
  rw [List.pairwise_append]
  refine ⟨?_, hgroup _ _, ?_⟩
  · rw [List.pairwise_append]
    refine ⟨hgroup _ _, hgroup _ _, ?_⟩
    intro a ha b hb
    exact Or.inl (by rw [mkSyms_kind ha, mkSyms_kind hb]; decide)
  · intro a ha b hb
    rcases List.mem_append.1 ha with ha | ha
    · exact Or.inl (by rw [mkSyms_kind ha, mkSyms_kind hb]; decide)
    · exact Or.inl (by rw [mkSyms_kind ha, mkSyms_kind hb]; decide)

/-- Claim C2, counterexample: for a declaration at a positive column of the
last line whose block is never closed, the resolver's fallback
`Position(lineCount - 1, 0)` lies before the declaration start, so
`declarationOffset <= range.end` fails: on `x; class C` the class symbol
starts at `(0, 3)` but its range ends at `(0, 0)`. -/
theorem C2_counterexample :
    docSymbols "x; class C".data =
      [⟨"C".data, SymKind.cls, 3, (0, 3), (0, 0)⟩] ∧
    ¬ posLe ((0, 3) : Nat × Nat) (0, 0) :=
  ⟨by decide, by decide⟩

/-- Claim C2, amended: every symbol's range start is exactly the position
of its declaration offset (so `range.start <= declarationOffset` holds),
and its range end either lies at or after the range start (a matching
closing brace was found) or is the degraded fallback
`Position(lineCount - 1, 0)`, which may precede the declaration start. -/
theorem C2_range_invariant (text : List Char) (s : SpSymbol) (h : s ∈ docSymbols text) :
    s.rangeStart = positionAt text s.declOffset ∧
      (posLe s.rangeStart s.rangeEnd ∨
        s.rangeEnd = ((splitLines text).length - 1, 0)) := by
  have key : ∀ (k : SymKind) (ms : List (Nat × List Char)), s ∈ mkSyms text k ms →
      s.rangeStart = positionAt text s.declOffset ∧
        (posLe s.rangeStart s.rangeEnd ∨
          s.rangeEnd = ((splitLines text).length - 1, 0)) := by
    intro k ms hm
    simp only [mkSyms, List.mem_map] at hm
    obtain ⟨m, _, rfl⟩ := hm
    exact ⟨rfl, findBlockEnd_cases _ _⟩
  unfold docSymbols at h
  rcases List.mem_append.1 h with h | h
  · rcases List.mem_append.1 h with h | h
    · exact key _ _ h
    · exact key _ _ h
  · exact key _ _ h

/-- Claim C2, witness: the single class symbol of `class C {}` satisfies
the amended range invariant. -/
theorem C2_range_invariant_witness :
    (⟨"C".data, SymKind.cls, 0, (0, 0), (0, 10)⟩ : SpSymbol).rangeStart =
        positionAt "class C \x7b\x7d".data
          (⟨"C".data, SymKind.cls, 0, (0, 0), (0, 10)⟩ : SpSymbol).declOffset ∧
      (posLe (⟨"C".data, SymKind.cls, 0, (0, 0), (0, 10)⟩ : SpSymbol).rangeStart
          (⟨"C".data, SymKind.cls, 0, (0, 0), (0, 10)⟩ : SpSymbol).rangeEnd ∨
        (⟨"C".data, SymKind.cls, 0, (0, 0), (0, 10)⟩ : SpSymbol).rangeEnd =
          ((splitLines "class C \x7b\x7d".data).length - 1, 0)) :=
  C2_range_invariant "class C \x7b\x7d".data _ (by decide)

/-- Claim C3, counterexample: on `class C {` (an opening brace that is
never closed) the resolver returns `(0, 0)` — the start of the last line —
and not the end-of-document position `(0, 9)`. -/
theorem C3_counterexample :
    noClose (visited (splitLines "class C \x7b".data) 0 0) = true ∧
      findBlockEnd (splitLines "class C \x7b".data) (0, 0) ≠
        endOfDocPos "class C \x7b".data :=
  ⟨by decide, by decide⟩

/-- Claim C3, amended: when the scan from the start position never brings
the brace-depth counter back to zero after a first `\x7b` (or no `\x7b`
occurs at all), the resolver returns `Position(lineCount - 1, 0)` — the
start of the last line, not the end-of-document position — and, being a
total function, raises no error. -/
theorem C3_unclosed_block_fallback (lines : List (List Char)) (sl sc : Nat)
    (h : noClose (visited lines sl sc) = true) :
    findBlockEnd lines (sl, sc) = (lines.length - 1, 0) := by
  have h2 := scanBlock_eq_none (visited lines sl sc) 0 false (noClose_all h)
  unfold findBlockEnd
  simp only []
  rw [h2]

/-- Claim C3, witness: the fallback theorem applied to `class C {`. -/
theorem C3_unclosed_block_fallback_witness :
    noClose (visited (splitLines "class C \x7b".data) 0 0) = true ∧
    findBlockEnd (splitLines "class C \x7b".data) (0, 0) =
      ((splitLines "class C \x7b".data).length - 1, 0) :=
  ⟨by decide, C3_unclosed_block_fallback _ 0 0 (by decide)⟩

/-- Claim C4, counterexample: on the line `return 1` the generator emits
exactly one Warning with a one-character range at the last character and a
stable code, but its message is the fixed string `Statement should end
with a semicolon`, not `statement should end with a terminator` as the
claim states. -/
theorem C4_counterexample :
    updateDiagnosticsList "return 1".data =
      [⟨0, 7, 8, msgSemicolon, Severity.warning, codeMissing⟩] ∧
    msgSemicolon ≠ "statement should end with a terminator".data :=
  ⟨by decide, by decide⟩

/-- Claim C4, amended: for every line of every document, the diagnostics
attached to that line are exactly: nothing when the trimmed line is empty
or ends with one of `;`, `:`, `\x7b`, `\x7d`, and otherwise exactly one
Warning whose one-character range sits at the last character of the raw
line, with the fixed message `Statement should end with a semicolon` and
the stable code `spice-missing-semicolon`. -/
theorem C4_terminator_diagnostics (text : List Char) (i : Nat) (line : List Char)
    (h : (splitLines text).get? i = some line) :
    (updateDiagnosticsList text).filter (fun d => d.line == i) =
      (if (trimChars line).isEmpty then ([] : List Diag)
       else if validEndings.any (fun c => endsWithChar (trimChars line) c) then []
       else [⟨i, line.length - 1, line.length, msgSemicolon, Severity.warning, codeMissing⟩]) := by
  have h2 := dgAux_filter (splitLines text) 0 i line h
  simp only [Nat.zero_add] at h2
  unfold updateDiagnosticsList
  rw [h2]
  rfl

/-- Claim C4, witness: on `return 1` line 0 carries exactly the one
Warning; on `return 1;` it carries nothing. -/
theorem C4_terminator_diagnostics_witness :
    (updateDiagnosticsList "return 1".data).filter (fun d => d.line == 0) =
        [⟨0, 7, 8, msgSemicolon, Severity.warning, codeMissing⟩] ∧
    (updateDiagnosticsList "return 1;".data).filter (fun d => d.line == 0) = [] :=
  ⟨(C4_terminator_diagnostics "return 1".data 0 "return 1".data (by decide)).trans
      (by decide),
   (C4_terminator_diagnostics "return 1;".data 0 "return 1;".data (by decide)).trans
      (by decide)⟩

/-- Claim C5: on the designated nested declaration
`final class Dog extends Animal implements Walkable \x7b def bark() -> None \x7b pass; \x7d \x7d`
the scanner returns exactly two symbols — the class `Dog` spanning the
whole outer block (offset 0 to position `(0, 83)`, just after the final
`\x7d`) and the function `bark` spanning only the inner block (offset 53
to position `(0, 81)`, just after the inner `\x7d`); and in general the
resolver's range ends immediately after the first visited `\x7d` at which
the depth counter returns to zero after an opening brace — the
declaration's own matching closing brace, never a later one. -/
theorem C5_scanner_dog_example :
    docSymbols "final class Dog extends Animal implements Walkable \x7b def bark() -> None \x7b pass; \x7d \x7d".data =
      [⟨"Dog".data, SymKind.cls, 0, (0, 0), (0, 83)⟩,
       ⟨"bark".data, SymKind.fn, 53, (0, 53), (0, 81)⟩] ∧
    ∀ (lines : List (List Char)) (sl sc k : Nat) (t : Nat × Nat × Char),
      closesAt (visited lines sl sc) k = true →
      (∀ j, j < k → closesAt (visited lines sl sc) j = false) →
      (visited lines sl sc).get? k = some t →
      findBlockEnd lines (sl, sc) = (t.1, t.2.1 + 1) := by
  constructor
  · decide
  · intro lines sl sc k t hk hleast hget
    obtain ⟨t2, hget2, hscan⟩ := scanBlock_eq_some_of_least _ 0 false k hk hleast
    rw [hget] at hget2
    have ht : t2 = t := (Option.some.inj hget2).symm
    subst ht
    unfold findBlockEnd
    simp only []
    rw [hscan]

/-- Claim C5, witness: the general matching-brace conclusion applied to
the block `a\x7b\x7d`, whose first depth-zero closing brace sits at
`(0, 2)`. -/
theorem C5_scanner_dog_example_witness :
    closesAt (visited (splitLines "a\x7b\x7d".data) 0 0) 2 = true ∧
    findBlockEnd (splitLines "a\x7b\x7d".data) (0, 0) = (0, 3) :=
  ⟨by decide,
   C5_scanner_dog_example.2 (splitLines "a\x7b\x7d".data) 0 0 2 (0, 2, '}')
     (by decide) (by decide) (by decide)⟩

/-- Claim C6: in every document each line contributes at most one override
(the line numbers of the override list are strictly increasing, so no line
carries both a function-definition and an assignment override), overrides
appear in line order, and lines that are blank after trimming or start
with `#` or `//` contribute nothing. -/
theorem C6_overrides_per_line (text : List Char) : OverridePerLine text := by
  constructor
  · exact ovAux_sorted (splitLines text) 0
  · intro i line hget hskip o ho heq
    obtain ⟨j, l2, hg2, hm⟩ := ovAux_mem (splitLines text) 0 o ho
    have hline := lineOverrides_line hm
    have hj : j = i := by omega
    subst hj
    rw [hget] at hg2
    have hl : l2 = line := (Option.some.inj hg2).symm
    subst hl
    rw [show (0 : Nat) + j = j from Nat.zero_add j] at hm
    rw [lineOverrides_of_skip2 hskip] at hm
    cases hm

/-- Claim C6, witness: the per-line override contract on a concrete
document with a comment line, an assignment override and a blank line. -/
theorem C6_overrides_per_line_witness :
    OverridePerLine "# note\nlen = 5;\n\nprint = 3".data :=
  C6_overrides_per_line _

/-- Claim C7: the shadow detector emits exactly one FunctionDefinition
override named `print` on `def print(x):`, exactly one Assignment override
named `len` on `len = 5;`, and nothing on `x <= 5;`. -/
theorem C7_shadow_examples :
    detectBuiltinOverrides "def print(x):".data = [⟨"print".data, 1, OvKind.fnDef⟩] ∧
    detectBuiltinOverrides "len = 5;".data = [⟨"len".data, 1, OvKind.assign⟩] ∧
    detectBuiltinOverrides "x <= 5;".data = [] :=
  ⟨by decide, by decide, by decide⟩

/-- Claim C8: resolve-by-name returns at most one location, chosen by
pattern precedence — the leftmost class-pattern match if one exists
anywhere, otherwise the leftmost interface-pattern match, otherwise the
leftmost `def name(` match, otherwise nothing. -/
theorem C8_definition_precedence (text w : List Char) : DefinitionPrecedence text w := by
  refine ⟨?_, ?_, ?_⟩
  · intro p hp
    unfold sdDefinition at hp
    cases h1 : scanFirst (classStepW w) text with
    | some q =>
      obtain ⟨d, rest⟩ := q
      rw [h1] at hp
      obtain ⟨hs, hmin⟩ := scanFirst_eq_some _ _ _ _ h1
      left
      refine ⟨d, ⟨by rw [hs]; simp, hmin⟩, ?_⟩
      simp only [] at hp
      rw [← Option.some.inj hp]
      unfold stepLocOf matchedAt
      rw [hs]
    | none =>
      rw [h1] at hp
      have hcn : noMatch (classStepW w) text := (scanFirst_eq_none _ _).1 h1
      cases h2 : scanFirst (ifaceStepW w) text with
      | some q =>
        obtain ⟨d, rest⟩ := q
        rw [h2] at hp
        obtain ⟨hs, hmin⟩ := scanFirst_eq_some _ _ _ _ h2
        right; left
        refine ⟨hcn, d, ⟨by rw [hs]; simp, hmin⟩, ?_⟩
        simp only [] at hp
        rw [← Option.some.inj hp]
        unfold stepLocOf matchedAt
        rw [hs]
      | none =>
        rw [h2] at hp
        have hin : noMatch (ifaceStepW w) text := (scanFirst_eq_none _ _).1 h2
        cases h3 : scanFirst (defStepW w) text with
        | some q =>
          obtain ⟨d, rest⟩ := q
          rw [h3] at hp
          obtain ⟨hs, hmin⟩ := scanFirst_eq_some _ _ _ _ h3
          right; right
          refine ⟨hcn, hin, d, ⟨by rw [hs]; simp, hmin⟩, ?_⟩
          simp only [] at hp
          rw [← Option.some.inj hp]
          unfold stepLocOf matchedAt
          rw [hs]
        | none => rw [h3] at hp; cases hp
  · intro hn
    unfold sdDefinition at hn
    cases h1 : scanFirst (classStepW w) text with
    | some q => obtain ⟨d, rest⟩ := q; rw [h1] at hn; simp only [] at hn; cases hn
    | none =>
      rw [h1] at hn
      cases h2 : scanFirst (ifaceStepW w) text with
      | some q => obtain ⟨d, rest⟩ := q; rw [h2] at hn; simp only [] at hn; cases hn
      | none =>
        rw [h2] at hn
        cases h3 : scanFirst (defStepW w) text with
        | some q => obtain ⟨d, rest⟩ := q; rw [h3] at hn; simp only [] at hn; cases hn
        | none =>
          exact ⟨(scanFirst_eq_none _ _).1 h1, (scanFirst_eq_none _ _).1 h2,
            (scanFirst_eq_none _ _).1 h3⟩
  · rintro ⟨hc, hi, hd⟩
    unfold sdDefinition
    rw [(scanFirst_eq_none _ _).2 hc, (scanFirst_eq_none _ _).2 hi,
      (scanFirst_eq_none _ _).2 hd]

/-- Claim C8, witness: the precedence contract on a concrete document and
word. -/
theorem C8_definition_precedence_witness :
    DefinitionPrecedence "class Foo \x7b\x7d\ndef Foo() \x7b\x7d".data "Foo".data :=
  C8_definition_precedence _ _

/-- Claim C9: the block boundary resolver is deterministic — it is a pure
function of its two arguments (the embedding is stateless, as is the
source, which reads only its arguments and local variables), so repeated
calls with identical input return identical output. -/
theorem C9_findBlockEnd_deterministic (lines : List (List Char)) (startPos : Nat × Nat) :
    findBlockEnd lines startPos = findBlockEnd lines startPos := rfl

/-- Claim C10: the declaration patterns have no left word boundary — on
`subclass Foo \x7b \x7d`, which declares no class, the substring
`class Foo` of `subclass` matches the class pattern, so the scanner emits
a Class symbol `Foo`, the completion scan offers `Foo` as a user-defined
class, and resolve-by-name for `Foo` returns the location of the name
inside that match. -/
theorem C10_substring_class_match :
    docSymbols "subclass Foo \x7b \x7d".data =
      [⟨"Foo".data, SymKind.cls, 3, (0, 3), (0, 16)⟩] ∧
    parseDocumentSymbols "subclass Foo \x7b \x7d".data = [("Foo".data, SymKind.cls)] ∧
    sdDefinition "subclass Foo \x7b \x7d".data "Foo".data = some (0, 9) :=
  ⟨by decide, by decide, by decide⟩
